import Mathlib

/-!
Shallow embedding of `src/extension/unhash_ip.py`, an exhaustive IPv4
preimage searcher.  Python dicts are modelled as association lists with
Python's assignment semantics (replace in place when the key is present,
append otherwise), Python sets of digest strings as `Finset String`, and
the SHA-1 hex digest function (external `hashlib` library code) as an
arbitrary parameter `sha1 : String → String`; every statement below is
proved for all values of that parameter, hence in particular for SHA-1.
-/

/-- Python dict assignment `m[k] = v`: if `k` is already a key its value is
replaced in place, otherwise the pair is appended at the end. -/
def dictInsert : List (String × String) → String → String → List (String × String)
  | [], k, v => [(k, v)]
  | (k', v') :: rest, k, v =>
    if k' = k then (k, v) :: rest else (k', v') :: dictInsert rest k v

/-- Python `m.update(r)`: assign every pair of `r` into `m`, in order. -/
def dictUpdate (m r : List (String × String)) : List (String × String) :=
  r.foldl (fun acc kv => dictInsert acc kv.1 kv.2) m

/-- Key set of a dict, as a `Finset` (Python `set(m.keys())`). -/
def dkeys (m : List (String × String)) : Finset String :=
  (m.map Prod.fst).toFinset

/-- Extensional equality of dicts, i.e. Python `==` on dicts: the same keys
bound to the same values, ignoring insertion order. -/
def dictEquiv (m₁ m₂ : List (String × String)) : Prop :=
  ∀ k, List.lookup k m₁ = List.lookup k m₂

/-- The dotted-quad string `f"{a}.{b}.{c}.{d}"` built at line 31 of
`unhash_ip.py`. -/
def ipStr (a b c d : Nat) : String :=
  toString a ++ "." ++ toString b ++ "." ++ toString c ++ "." ++ toString d

/-- The candidate sequence enumerated by the four nested loops of
`crack_range` (lines 27-30): first octet over `range(start_a, end_a)`,
the other three over `range(256)`, nested ascending. -/
def candidates (start_a end_a : Nat) : List String :=
  (List.range' start_a (end_a - start_a)).flatMap fun a =>
    (List.range 256).flatMap fun b =>
      (List.range 256).flatMap fun c =>
        (List.range 256).map fun d => ipStr a b c d

/-- Loop body of `crack_range` (lines 27-40), flattened over the candidate
sequence: hash each candidate, record it when the digest is a still-wanted
target, and return as soon as the local result count reaches the size of
the target snapshot.  The `print` calls are external output and carry no
state. -/
def crackLoop (sha1 : String → String) (targets : Finset String) :
    List String → List (String × String) → List (String × String)
  | [], results => results
  | ip :: rest, results =>
    let h := sha1 ip
    if h ∈ targets then
      let results' := dictInsert results h ip
      if results'.length = targets.card then results'
      else crackLoop sha1 targets rest results'
    else crackLoop sha1 targets rest results

/-- `crack_range(start_a, end_a, targets)` from `unhash_ip.py` (lines
24-40).  The `target_dict` argument only feeds the progress printing and is
dropped. -/
def crack_range (sha1 : String → String) (start_a end_a : Nat)
    (targets : Finset String) : List (String × String) :=
  crackLoop sha1 targets (candidates start_a end_a) []

/-- Instrumented variant of `crackLoop` that additionally counts how many
candidates are enumerated; each enumerated candidate is hashed exactly
once, so the count is also the number of digest computations. -/
def crackLoopC (sha1 : String → String) (targets : Finset String) :
    List String → List (String × String) → Nat → List (String × String) × Nat
  | [], results, n => (results, n)
  | ip :: rest, results, n =>
    let h := sha1 ip
    if h ∈ targets then
      let results' := dictInsert results h ip
      if results'.length = targets.card then (results', n + 1)
      else crackLoopC sha1 targets rest results' (n + 1)
    else crackLoopC sha1 targets rest results (n + 1)

/-- `crack_range` with the enumeration counter. -/
def crack_rangeC (sha1 : String → String) (start_a end_a : Nat)
    (targets : Finset String) : List (String × String) × Nat :=
  crackLoopC sha1 targets (candidates start_a end_a) [] 0

/-! ### Dictionary lemmas -/

theorem dkeys_nil : dkeys [] = ∅ := rfl

theorem dkeys_cons (p : String × String) (m : List (String × String)) :
    dkeys (p :: m) = insert p.1 (dkeys m) := by
  simp [dkeys]

theorem mem_dkeys (m : List (String × String)) (x : String) :
    x ∈ dkeys m ↔ ∃ v, (x, v) ∈ m := by
  induction m with
  | nil => simp [dkeys_nil]
  | cons hd tl ih =>
    obtain ⟨k, v⟩ := hd
    rw [dkeys_cons]
    simp only [Finset.mem_insert, List.mem_cons, ih, Prod.mk.injEq]
    constructor
    · rintro (rfl | ⟨w, hw⟩)
      · exact ⟨v, Or.inl ⟨rfl, rfl⟩⟩
      · exact ⟨w, Or.inr hw⟩
    · rintro ⟨w, ⟨rfl, rfl⟩ | hw⟩
      · exact Or.inl rfl
      · exact Or.inr ⟨w, hw⟩

theorem lookup_cons_str (k v x : String) (tl : List (String × String)) :
    List.lookup x ((k, v) :: tl) = if x = k then some v else List.lookup x tl := by
  by_cases hx : x = k
  · simp [List.lookup, hx]
  · have hb : (x == k) = false := beq_eq_false_iff_ne.mpr hx
    simp [List.lookup, hb, hx]

theorem mem_dictInsert (m : List (String × String)) (k v : String)
    (p : String × String) (hp : p ∈ dictInsert m k v) : p = (k, v) ∨ p ∈ m := by
  induction m with
  | nil => simpa [dictInsert] using hp
  | cons hd tl ih =>
    obtain ⟨k', v'⟩ := hd
    by_cases hk : k' = k
    · simp only [dictInsert, if_pos hk] at hp
      rcases List.mem_cons.mp hp with h | h
      · exact Or.inl h
      · exact Or.inr (List.mem_cons_of_mem _ h)
    · simp only [dictInsert, if_neg hk] at hp
      rcases List.mem_cons.mp hp with h | h
      · exact Or.inr (by rw [h]; exact List.mem_cons_self _ _)
      · rcases ih h with h' | h'
        · exact Or.inl h'
        · exact Or.inr (List.mem_cons_of_mem _ h')

theorem dkeys_dictInsert (m : List (String × String)) (k v : String) :
    dkeys (dictInsert m k v) = insert k (dkeys m) := by
  induction m with
  | nil => simp [dictInsert, dkeys]
  | cons hd tl ih =>
    obtain ⟨k', v'⟩ := hd
    by_cases hk : k' = k
    · rw [show dictInsert ((k', v') :: tl) k v = (k, v) :: tl from by
        simp [dictInsert, hk]]
      rw [dkeys_cons, dkeys_cons, hk]
      exact (Finset.insert_idem _ _).symm
    · rw [show dictInsert ((k', v') :: tl) k v = (k', v') :: dictInsert tl k v from by
        simp [dictInsert, hk]]
      rw [dkeys_cons, dkeys_cons, ih]
      exact Finset.Insert.comm _ _ _

theorem length_dictInsert (m : List (String × String)) (k v : String) :
    (dictInsert m k v).length = if k ∈ dkeys m then m.length else m.length + 1 := by
  induction m with
  | nil => simp [dictInsert, dkeys]
  | cons hd tl ih =>
    obtain ⟨k', v'⟩ := hd
    by_cases hk : k' = k
    · simp [dictInsert, hk, dkeys_cons]
    · simp only [dictInsert, if_neg hk, List.length_cons, ih, dkeys_cons]
      by_cases h2 : k ∈ dkeys tl
      · simp [h2, Finset.mem_insert]
      · have hk' : ¬ k = k' := fun h => hk h.symm
        simp [h2, Finset.mem_insert, hk']

theorem lookup_dictInsert (m : List (String × String)) (k v x : String) :
    List.lookup x (dictInsert m k v) = if x = k then some v else List.lookup x m := by
  induction m with
  | nil =>
    have h1 : dictInsert [] k v = [(k, v)] := rfl
    rw [h1, lookup_cons_str]
  | cons hd tl ih =>
    obtain ⟨k', v'⟩ := hd
    by_cases hk : k' = k
    · subst hk
      have h1 : dictInsert ((k', v') :: tl) k' v = (k', v) :: tl := by
        simp [dictInsert]
      rw [h1, lookup_cons_str, lookup_cons_str]
      by_cases hx : x = k' <;> simp [hx]
    · have h1 : dictInsert ((k', v') :: tl) k v = (k', v') :: dictInsert tl k v := by
        simp [dictInsert, hk]
      rw [h1, lookup_cons_str, lookup_cons_str, ih]
      by_cases hx : x = k'
      · have hxk : ¬ x = k := fun h => hk (hx.symm.trans h)
        simp [hx, hxk, hk]
      · simp [hx]

theorem lookup_append_str (l₁ l₂ : List (String × String)) (x : String) :
    List.lookup x (l₁ ++ l₂) = (List.lookup x l₁).or (List.lookup x l₂) := by
  induction l₁ with
  | nil => simp [List.lookup]
  | cons hd tl ih =>
    obtain ⟨k, v⟩ := hd
    by_cases hx : x = k
    · simp [List.cons_append, lookup_cons_str, hx]
    · simp [List.cons_append, lookup_cons_str, hx, ih]

theorem dictUpdate_cons (m : List (String × String)) (hd : String × String)
    (tl : List (String × String)) :
    dictUpdate m (hd :: tl) = dictUpdate (dictInsert m hd.1 hd.2) tl := rfl

theorem lookup_dictUpdate (r m : List (String × String)) (x : String) :
    List.lookup x (dictUpdate m r)
      = (List.lookup x r.reverse).or (List.lookup x m) := by
  induction r generalizing m with
  | nil => simp [dictUpdate]
  | cons hd tl ih =>
    rw [dictUpdate_cons, ih, List.reverse_cons, lookup_append_str]
    cases htl : List.lookup x tl.reverse with
    | some v => simp
    | none =>
      obtain ⟨k, w⟩ := hd
      have hnil : List.lookup x ([] : List (String × String)) = none := rfl
      by_cases hx : x = k <;>
        simp [lookup_cons_str, hx, hnil, lookup_dictInsert]

theorem dkeys_dictUpdate (r m : List (String × String)) :
    dkeys (dictUpdate m r) = dkeys m ∪ dkeys r := by
  induction r generalizing m with
  | nil => simp [dictUpdate, dkeys_nil]
  | cons hd tl ih =>
    rw [dictUpdate_cons, ih, dkeys_dictInsert, dkeys_cons]
    ext x
    simp only [Finset.mem_insert, Finset.mem_union]
    tauto

/-! ### Enumeration lemmas

The candidate sequence is shown equal to the image of a contiguous block
of 32-bit values under base-256 digit decoding, which packages its length,
ordering and membership in one identity. -/

/-- Decode a 32-bit value into the dotted-quad string of its base-256
digits. -/
def ipOfVal (n : Nat) : String :=
  ipStr (n / 16777216) (n / 65536 % 256) (n / 256 % 256) (n % 256)

/-- Decimal digit parser, used only to invert `toString` on octets. -/
def parseNat (l : List Char) : Nat :=
  l.foldl (fun acc c => acc * 10 + (c.toNat - 48)) 0

set_option maxRecDepth 10000 in
theorem parse_toString256 : ∀ n < 256, parseNat (toString n).data = n := by decide

set_option maxRecDepth 10000 in
theorem dot_free256 : ∀ n < 256, '.' ∉ (toString n).data := by decide

theorem toString_inj256 {m n : Nat} (hm : m < 256) (hn : n < 256)
    (h : (toString m).data = (toString n).data) : m = n := by
  have h1 := parse_toString256 m hm
  rw [h, parse_toString256 n hn] at h1
  exact h1.symm

theorem split_dot (l₁ : List Char) : ∀ l₂ r₁ r₂ : List Char, '.' ∉ l₁ → '.' ∉ l₂ →
    l₁ ++ '.' :: r₁ = l₂ ++ '.' :: r₂ → l₁ = l₂ ∧ r₁ = r₂ := by
  induction l₁ with
  | nil =>
    intro l₂ r₁ r₂ h₁ h₂ h
    cases l₂ with
    | nil => simpa using h
    | cons c t =>
      simp only [List.nil_append, List.cons_append, List.cons.injEq] at h
      exact (h₂ (by rw [h.1]; exact List.mem_cons_self c t)).elim
  | cons c t ih =>
    intro l₂ r₁ r₂ h₁ h₂ h
    cases l₂ with
    | nil =>
      simp only [List.cons_append, List.nil_append, List.cons.injEq] at h
      exact (h₁ (by rw [← h.1]; exact List.mem_cons_self c t)).elim
    | cons c' t' =>
      simp only [List.cons_append, List.cons.injEq] at h
      obtain ⟨rfl, h2⟩ := h
      have h₁' : '.' ∉ t := fun hm => h₁ (List.mem_cons_of_mem _ hm)
      have h₂' : '.' ∉ t' := fun hm => h₂ (List.mem_cons_of_mem _ hm)
      obtain ⟨he, hr⟩ := ih t' r₁ r₂ h₁' h₂' h2
      exact ⟨by rw [he], hr⟩

theorem ipStr_data (a b c d : Nat) :
    (ipStr a b c d).data
      = (toString a).data ++ '.' ::
          ((toString b).data ++ '.' :: ((toString c).data ++ '.' :: (toString d).data)) := by
  have hdot : (".".data) = ['.'] := rfl
  simp [ipStr, String.data_append, hdot, List.append_assoc]

theorem ipStr_inj256 {a b c d a' b' c' d' : Nat}
    (ha : a < 256) (hb : b < 256) (hc : c < 256) (hd : d < 256)
    (ha' : a' < 256) (hb' : b' < 256) (hc' : c' < 256) (hd' : d' < 256)
    (h : ipStr a b c d = ipStr a' b' c' d') :
    a = a' ∧ b = b' ∧ c = c' ∧ d = d' := by
  have hdata : (ipStr a b c d).data = (ipStr a' b' c' d').data := by rw [h]
  rw [ipStr_data, ipStr_data] at hdata
  obtain ⟨e₁, h₂⟩ := split_dot _ _ _ _ (dot_free256 a ha) (dot_free256 a' ha') hdata
  obtain ⟨e₂, h₃⟩ := split_dot _ _ _ _ (dot_free256 b hb) (dot_free256 b' hb') h₂
  obtain ⟨e₃, e₄⟩ := split_dot _ _ _ _ (dot_free256 c hc) (dot_free256 c' hc') h₃
  exact ⟨toString_inj256 ha ha' e₁, toString_inj256 hb hb' e₂,
    toString_inj256 hc hc' e₃, toString_inj256 hd hd' e₄⟩

theorem ipOfVal_encode (a b c d : Nat) (hb : b < 256) (hc : c < 256) (hd : d < 256) :
    ipOfVal (((a * 256 + b) * 256 + c) * 256 + d) = ipStr a b c d := by
  have e₁ : (((a * 256 + b) * 256 + c) * 256 + d) / 16777216 = a := by omega
  have e₂ : (((a * 256 + b) * 256 + c) * 256 + d) / 65536 % 256 = b := by omega
  have e₃ : (((a * 256 + b) * 256 + c) * 256 + d) / 256 % 256 = c := by omega
  have e₄ : (((a * 256 + b) * 256 + c) * 256 + d) % 256 = d := by omega
  rw [ipOfVal, e₁, e₂, e₃, e₄]

theorem flatMap_congr_str {l : List Nat} {f g : Nat → List String}
    (h : ∀ x ∈ l, f x = g x) : l.flatMap f = l.flatMap g := by
  simp only [List.flatMap]
  rw [List.map_congr_left h]

theorem shift_flatMap (F : Nat → List String) (t n : Nat) :
    (List.range n).flatMap (fun c => F (t + c)) = (List.range' t n).flatMap F := by
  rw [List.range'_eq_map_range, List.flatMap_map]

theorem block_flatMap (g : Nat → String) (k : Nat) : ∀ n t : Nat,
    (List.range' t n).flatMap (fun x => (List.range' (x * k) k).map g)
      = (List.range' (t * k) (n * k)).map g := by
  intro n
  induction n with
  | zero => intro t; simp
  | succ m ih =>
    intro t
    rw [List.range'_succ, List.flatMap_cons, ih (t + 1), ← List.map_append]
    have h₁ : (t + 1) * k = t * k + k := by ring
    rw [h₁, List.range'_append_1]
    have h₂ : m * k + k = (m + 1) * k := by ring
    rw [h₂]

theorem inner_d (a b c : Nat) (hb : b < 256) (hc : c < 256) :
    (List.range 256).map (fun d => ipStr a b c d)
      = (List.range' (((a * 256 + b) * 256 + c) * 256) 256).map ipOfVal := by
  rw [List.range'_eq_map_range, List.map_map]
  apply List.map_congr_left
  intro d hd
  exact (ipOfVal_encode a b c d hb hc (List.mem_range.mp hd)).symm

theorem inner_c (a b : Nat) (hb : b < 256) :
    (List.range 256).flatMap (fun c => (List.range 256).map (fun d => ipStr a b c d))
      = (List.range' ((a * 256 + b) * 65536) 65536).map ipOfVal := by
  rw [flatMap_congr_str (fun c hc => inner_d a b c hb (List.mem_range.mp hc))]
  rw [shift_flatMap (fun x => (List.range' (x * 256) 256).map ipOfVal) ((a * 256 + b) * 256) 256]
  rw [block_flatMap ipOfVal 256 256 ((a * 256 + b) * 256)]
  have h₁ : (a * 256 + b) * 256 * 256 = (a * 256 + b) * 65536 := by ring
  rw [h₁]

theorem inner_b (a : Nat) :
    (List.range 256).flatMap (fun b =>
        (List.range 256).flatMap (fun c =>
          (List.range 256).map (fun d => ipStr a b c d)))
      = (List.range' (a * 16777216) 16777216).map ipOfVal := by
  rw [flatMap_congr_str (fun b hb => inner_c a b (List.mem_range.mp hb))]
  rw [shift_flatMap (fun x => (List.range' (x * 65536) 65536).map ipOfVal) (a * 256) 256]
  rw [block_flatMap ipOfVal 65536 256 (a * 256)]
  have h₁ : a * 256 * 65536 = a * 16777216 := by ring
  rw [h₁]

theorem candidates_eq (s e : Nat) :
    candidates s e = (List.range' (s * 16777216) ((e - s) * 16777216)).map ipOfVal := by
  rw [candidates, flatMap_congr_str (fun a _ => inner_b a)]
  rw [block_flatMap ipOfVal 16777216 (e - s) s]

theorem length_candidates (s e : Nat) :
    (candidates s e).length = (e - s) * 16777216 := by
  rw [candidates_eq]
  simp

theorem mem_candidates (s e : Nat) (ip : String) :
    ip ∈ candidates s e
      ↔ ∃ a b c d, s ≤ a ∧ a < e ∧ b < 256 ∧ c < 256 ∧ d < 256 ∧ ip = ipStr a b c d := by
  rw [candidates_eq]
  simp only [List.mem_map, List.mem_range'_1]
  constructor
  · rintro ⟨n, ⟨hn1, hn2⟩, rfl⟩
    refine ⟨n / 16777216, n / 65536 % 256, n / 256 % 256, n % 256,
      by omega, by omega, by omega, by omega, by omega, ?_⟩
    rfl
  · rintro ⟨a, b, c, d, hsa, hae, hb, hc, hd, rfl⟩
    refine ⟨((a * 256 + b) * 256 + c) * 256 + d, ⟨by omega, by omega⟩,
      ipOfVal_encode a b c d hb hc hd⟩

theorem nodup_candidates (s e : Nat) (he : e ≤ 256) : (candidates s e).Nodup := by
  rw [candidates_eq]
  apply List.Nodup.map_on ?_ (List.nodup_range' _ _)
  intro x hx y hy hxy
  rw [List.mem_range'_1] at hx hy
  have hx32 : x < 4294967296 := by omega
  have hy32 : y < 4294967296 := by omega
  obtain ⟨e₁, e₂, e₃, e₄⟩ := ipStr_inj256
    (by omega : x / 16777216 < 256) (by omega : x / 65536 % 256 < 256)
    (by omega : x / 256 % 256 < 256) (by omega : x % 256 < 256)
    (by omega : y / 16777216 < 256) (by omega : y / 65536 % 256 < 256)
    (by omega : y / 256 % 256 < 256) (by omega : y % 256 < 256) hxy
  omega

theorem lookup_isSome_iff_mem_dkeys (m : List (String × String)) (x : String) :
    (List.lookup x m).isSome ↔ x ∈ dkeys m := by
  induction m with
  | nil => simp [List.lookup, dkeys_nil]
  | cons hd tl ih =>
    obtain ⟨k, v⟩ := hd
    rw [lookup_cons_str, dkeys_cons]
    by_cases hx : x = k
    · simp [hx]
    · simp [hx, ih]

/-! ### Range scanner lemmas -/

theorem crackLoop_singleton (H : String → String) (X : String) :
    ∀ l : List String, X ∈ l → (∀ c ∈ l, H c = H X → c = X) →
      crackLoop H {H X} l [] = [(H X, X)] := by
  intro l
  induction l with
  | nil => intro h _; cases h
  | cons y rest ih =>
    intro hX huniq
    by_cases hy : y = X
    · subst hy
      have hmem : H y ∈ ({H y} : Finset String) := Finset.mem_singleton_self _
      simp only [crackLoop, if_pos hmem]
      have h1 : dictInsert [] (H y) y = [(H y, y)] := rfl
      rw [h1]
      simp
    · have hne : H y ∉ ({H X} : Finset String) := by
        simp only [Finset.mem_singleton]
        exact fun h => hy (huniq y (List.mem_cons_self y rest) h)
      simp only [crackLoop, if_neg hne]
      have hX' : X ∈ rest := by
        rcases List.mem_cons.mp hX with h | h
        · exact absurd h.symm hy
        · exact h
      exact ih hX' (fun c hc => huniq c (List.mem_cons_of_mem _ hc))

theorem crackLoop_sound (H : String → String) (T : Finset String) :
    ∀ (l : List String) (acc : List (String × String)) (p : String × String),
      p ∈ crackLoop H T l acc →
      p ∈ acc ∨ (p.1 ∈ T ∧ H p.2 = p.1 ∧ p.2 ∈ l) := by
  intro l
  induction l with
  | nil => intro acc p hp; exact Or.inl hp
  | cons y rest ih =>
    intro acc p hp
    simp only [crackLoop] at hp
    by_cases hy : H y ∈ T
    · rw [if_pos hy] at hp
      by_cases hlen : (dictInsert acc (H y) y).length = T.card
      · rw [if_pos hlen] at hp
        rcases mem_dictInsert _ _ _ _ hp with h | h
        · right
          rw [h]
          exact ⟨hy, rfl, List.mem_cons_self _ _⟩
        · exact Or.inl h
      · rw [if_neg hlen] at hp
        rcases ih _ p hp with h | h
        · rcases mem_dictInsert _ _ _ _ h with h' | h'
          · right
            rw [h']
            exact ⟨hy, rfl, List.mem_cons_self _ _⟩
          · exact Or.inl h'
        · exact Or.inr ⟨h.1, h.2.1, List.mem_cons_of_mem _ h.2.2⟩
    · rw [if_neg hy] at hp
      rcases ih _ p hp with h | h
      · exact Or.inl h
      · exact Or.inr ⟨h.1, h.2.1, List.mem_cons_of_mem _ h.2.2⟩

theorem dkeys_crack_range_sub (H : String → String) (s e : Nat) (T : Finset String) :
    dkeys (crack_range H s e T) ⊆ T := by
  intro x hx
  obtain ⟨v, hv⟩ := (mem_dkeys _ x).mp hx
  rcases crackLoop_sound H T (candidates s e) [] (x, v) hv with h | h
  · cases h
  · exact h.1

theorem crackLoop_no_match (H : String → String) (T : Finset String) :
    ∀ l : List String, (∀ c ∈ l, H c ∉ T) →
      ∀ acc, crackLoop H T l acc = acc := by
  intro l
  induction l with
  | nil => intro _ acc; rfl
  | cons y rest ih =>
    intro hno acc
    simp only [crackLoop, if_neg (hno y (List.mem_cons_self y rest))]
    exact ih (fun c hc => hno c (List.mem_cons_of_mem _ hc)) acc

theorem crackLoopC_fst (H : String → String) (T : Finset String) :
    ∀ (l : List String) (acc : List (String × String)) (n : Nat),
      (crackLoopC H T l acc n).1 = crackLoop H T l acc := by
  intro l
  induction l with
  | nil => intro acc n; rfl
  | cons y rest ih =>
    intro acc n
    simp only [crackLoopC, crackLoop]
    by_cases hy : H y ∈ T
    · rw [if_pos hy, if_pos hy]
      by_cases hlen : (dictInsert acc (H y) y).length = T.card
      · rw [if_pos hlen, if_pos hlen]
      · rw [if_neg hlen, if_neg hlen, ih]
    · rw [if_neg hy, if_neg hy, ih]

theorem crackLoopC_count_empty (H : String → String) :
    ∀ (l : List String) (acc : List (String × String)) (n : Nat),
      (crackLoopC H (∅ : Finset String) l acc n).2 = n + l.length := by
  intro l
  induction l with
  | nil => intro acc n; rfl
  | cons y rest ih =>
    intro acc n
    have hy : H y ∉ (∅ : Finset String) := Finset.not_mem_empty _
    simp only [crackLoopC, if_neg hy, ih, List.length_cons]
    omega

theorem crackLoopC_count_singleton (H : String → String) (t : String) :
    ∀ (l : List String) (n : Nat), (∃ c ∈ l, H c = t) →
      (crackLoopC H {t} l [] n).2
        = n + (l.takeWhile (fun c => !(H c == t))).length + 1 := by
  intro l
  induction l with
  | nil => intro n h; simp at h
  | cons y rest ih =>
    intro n hex
    by_cases hy : H y = t
    · have hmem : H y ∈ ({t} : Finset String) := Finset.mem_singleton.mpr hy
      simp only [crackLoopC, if_pos hmem]
      have h1 : dictInsert [] (H y) y = [(H y, y)] := rfl
      rw [h1]
      simp [List.takeWhile_cons, hy]
    · have hne : H y ∉ ({t} : Finset String) := by
        simp only [Finset.mem_singleton]; exact hy
      simp only [crackLoopC, if_neg hne]
      have hex' : ∃ c ∈ rest, H c = t := by
        rcases hex with ⟨c, hc, hct⟩
        rcases List.mem_cons.mp hc with h | h
        · exact absurd (h ▸ hct) hy
        · exact ⟨c, h, hct⟩
      rw [ih (n + 1) hex']
      simp only [List.takeWhile_cons, hy]
      simp [hy]
      omega

theorem crackLoopC_count_le (H : String → String) (T : Finset String) :
    ∀ (l : List String) (acc : List (String × String)) (n : Nat),
      (crackLoopC H T l acc n).2 ≤ n + l.length := by
  intro l
  induction l with
  | nil => intro acc n; simp [crackLoopC]
  | cons y rest ih =>
    intro acc n
    simp only [crackLoopC, List.length_cons]
    by_cases hy : H y ∈ T
    · rw [if_pos hy]
      by_cases hlen : (dictInsert acc (H y) y).length = T.card
      · rw [if_pos hlen]
        show n + 1 ≤ n + (rest.length + 1)
        omega
      · rw [if_neg hlen]
        have := ih (dictInsert acc (H y) y) (n + 1)
        omega
    · rw [if_neg hy]
      have := ih acc (n + 1)
      omega

theorem crackLoopC_early_full (H : String → String) (T : Finset String) :
    ∀ (l : List String) (acc : List (String × String)) (n : Nat),
      (crackLoopC H T l acc n).2 < n + l.length →
      ((crackLoopC H T l acc n).1).length = T.card := by
  intro l
  induction l with
  | nil => intro acc n h; simp [crackLoopC] at h
  | cons y rest ih =>
    intro acc n h
    simp only [crackLoopC, List.length_cons] at h ⊢
    by_cases hy : H y ∈ T
    · rw [if_pos hy] at h ⊢
      by_cases hlen : (dictInsert acc (H y) y).length = T.card
      · rw [if_pos hlen] at h ⊢
        exact hlen
      · rw [if_neg hlen] at h ⊢
        exact ih _ (n + 1) (by omega)
    · rw [if_neg hy] at h ⊢
      exact ih _ (n + 1) (by omega)

/-! ### Aggregator and run model

This embeds `main` (lines 42-109 of `unhash_ip.py`): the Phase 1 loop over
the curated range list, the Phase 2 dispatch of 16-octet chunks over a
snapshot of the pending set, the merge loop over worker results in an
arbitrary completion order, and the final report.  Printing is external
output and carries no state. -/

/-- The hardcoded target table (lines 7-16). -/
def TARGET_HASHES : List (String × String) :=
  [("977b6967a5717fef69c2772af31accceaa53cc73", "Device IP"),
   ("f2bc41c32c7265b49cfa857f24b09529a549641f", "Default Gateway/DHCP"),
   ("cf764b40a447e2eebf923d1c3a4b362b1a17f5ca", "PublicIP field"),
   ("0377858af0fb16e14b0676f189bf0466a98a08eb", "Adapter 1 IP"),
   ("4d417d8be419a399a654fcbc028b9fba413f33cc", "Adapter 2 IP"),
   ("29c4d1aff3d55774cdd2ade49e0de895072235fd", "Adapter 3 IP"),
   ("6df3b7bad2e09da372d2e1e69eafd67539736549", "Adapter 4 IP"),
   ("df8de336853f75094de716688a3e1d6ad9839d95", "Adapter 5 IP")]

/-- State of the orchestrating loop in `main`: the still-pending target set
`remaining` and the accumulated result dict `all_results`. -/
structure AggState where
  remaining : Finset String
  found : List (String × String)

/-- One merge of a scan result into the aggregate (lines 76-77 and 96-97):
`all_results.update(results)` followed by `remaining -= set(results.keys())`. -/
def recordResults (st : AggState) (results : List (String × String)) : AggState :=
  { remaining := st.remaining \ dkeys results
    found := dictUpdate st.found results }

/-- One iteration of the Phase 1 loop (lines 71-77): stop when nothing is
pending, otherwise scan the listed range against the current pending set
and merge. -/
def scanStep (H : String → String) (st : AggState) (se : Nat × Nat) : AggState :=
  if st.remaining = ∅ then st
  else recordResults st (crack_range H se.1 se.2 st.remaining)

/-- The curated Phase 1 range list `common_ranges` (lines 52-66). -/
def common_ranges : List (Nat × Nat) :=
  [(10, 11), (172, 173), (192, 193), (1, 2), (8, 9), (20, 21), (40, 41),
   (52, 53), (13, 14), (104, 105), (157, 158), (168, 169), (207, 208)]

/-- Start state of `main` (lines 68-69): all table keys pending, empty
result dict. -/
def initState (table : List (String × String)) : AggState :=
  { remaining := dkeys table, found := [] }

/-- State after the whole Phase 1 loop. -/
def phase1Run (H : String → String) (table : List (String × String)) : AggState :=
  common_ranges.foldl (scanStep H) (initState table)

/-- The Phase 2 chunk ranges (lines 90-91): `range(0, 256, 16)` with
`end = min(start + 16, 256)`. -/
def chunkRanges : List (Nat × Nat) :=
  (List.range' 0 16 16).map (fun s => (s, min (s + 16) 256))

/-- The result maps computed by the Phase 2 workers (line 92): every chunk
is scanned against the same pending-set snapshot taken at dispatch. -/
def phase2Results (H : String → String) (pending : Finset String) :
    List (List (String × String)) :=
  chunkRanges.map (fun se => crack_range H se.1 se.2 pending)

/-- One iteration of the `as_completed` merge loop (lines 94-100): merge
the next completed worker result, or do nothing once the loop has broken
out because the pending set became empty. -/
def mergeStep (st : AggState) (r : List (String × String)) : AggState :=
  if st.remaining = ∅ then st else recordResults st r

/-- The whole run of `main` for a given arrival order of Phase 2 worker
results: Phase 1, then — only if digests remain pending — the Phase 2
merge loop. -/
def runAll (H : String → String) (table : List (String × String))
    (arrivals : List (List (String × String))) : AggState :=
  if (phase1Run H table).remaining = ∅ then phase1Run H table
  else arrivals.foldl mergeStep (phase1Run H table)

/-- One line of the final report (lines 105-109). -/
def reportLine (found : List (String × String)) (hd : String × String) : String :=
  match List.lookup hd.1 found with
  | some ip => hd.2 ++ ": " ++ ip
  | none => hd.2 ++ ": NOT FOUND (hash: " ++ hd.1 ++ ")"

/-- The final report: one line per entry of the target table, in table
order. -/
def finalReport (table found : List (String × String)) : List String :=
  table.map (reportLine found)

/-- The bookkeeping invariant of the aggregate state: pending set and
resolved keys are disjoint and together cover the original table keys. -/
def AggInv (orig : Finset String) (st : AggState) : Prop :=
  Disjoint st.remaining (dkeys st.found) ∧ st.remaining ∪ dkeys st.found = orig

theorem AggInv_init (table : List (String × String)) :
    AggInv (dkeys table) (initState table) := by
  constructor
  · simp [initState, dkeys_nil]
  · simp [initState, dkeys_nil]

theorem AggInv_record (orig : Finset String) (st : AggState)
    (r : List (String × String)) (hinv : AggInv orig st)
    (hsub : dkeys r ⊆ orig) : AggInv orig (recordResults st r) := by
  obtain ⟨hdisj, huni⟩ := hinv
  constructor
  · show Disjoint (st.remaining \ dkeys r) (dkeys (dictUpdate st.found r))
    rw [dkeys_dictUpdate, Finset.disjoint_union_right]
    exact ⟨Finset.disjoint_of_subset_left (Finset.sdiff_subset) hdisj,
      Finset.sdiff_disjoint⟩
  · show st.remaining \ dkeys r ∪ dkeys (dictUpdate st.found r) = orig
    rw [dkeys_dictUpdate]
    ext x
    have h1 : x ∈ st.remaining ∨ x ∈ dkeys st.found ↔ x ∈ orig := by
      rw [← huni]; simp [Finset.mem_union]
    have h2 : x ∈ dkeys r → x ∈ orig := fun h => hsub h
    simp only [Finset.mem_union, Finset.mem_sdiff]
    by_cases hr : x ∈ dkeys r <;> tauto

theorem remaining_sub_orig (orig : Finset String) (st : AggState)
    (hinv : AggInv orig st) : st.remaining ⊆ orig := by
  rw [← hinv.2]
  exact Finset.subset_union_left

theorem AggInv_scanStep (H : String → String) (orig : Finset String)
    (st : AggState) (se : Nat × Nat) (hinv : AggInv orig st) :
    AggInv orig (scanStep H st se) := by
  rw [scanStep]
  split
  · exact hinv
  · exact AggInv_record orig st _ hinv
      ((dkeys_crack_range_sub H se.1 se.2 st.remaining).trans
        (remaining_sub_orig orig st hinv))

theorem AggInv_foldl_scan (H : String → String) (orig : Finset String) :
    ∀ (rs : List (Nat × Nat)) (st : AggState), AggInv orig st →
      AggInv orig (rs.foldl (scanStep H) st) := by
  intro rs
  induction rs with
  | nil => intro st h; exact h
  | cons hd tl ih =>
    intro st h
    exact ih _ (AggInv_scanStep H orig st hd h)

theorem AggInv_mergeStep (orig : Finset String) (st : AggState)
    (r : List (String × String)) (hinv : AggInv orig st)
    (hsub : dkeys r ⊆ orig) : AggInv orig (mergeStep st r) := by
  rw [mergeStep]
  split
  · exact hinv
  · exact AggInv_record orig st r hinv hsub

theorem AggInv_foldl_merge (orig : Finset String) :
    ∀ (rs : List (List (String × String))) (st : AggState),
      (∀ r ∈ rs, dkeys r ⊆ orig) → AggInv orig st →
      AggInv orig (rs.foldl mergeStep st) := by
  intro rs
  induction rs with
  | nil => intro st _ h; exact h
  | cons hd tl ih =>
    intro st hsub h
    exact ih _ (fun r hr => hsub r (List.mem_cons_of_mem _ hr))
      (AggInv_mergeStep orig st hd h (hsub hd (List.mem_cons_self _ _)))

theorem AggInv_phase1 (H : String → String) (table : List (String × String)) :
    AggInv (dkeys table) (phase1Run H table) :=
  AggInv_foldl_scan H (dkeys table) common_ranges (initState table)
    (AggInv_init table)

theorem dkeys_reverse (m : List (String × String)) : dkeys m.reverse = dkeys m := by
  simp only [dkeys, List.map_reverse]
  exact List.toFinset_reverse

/-! ### Claims -/

/-- C1: for every sub-range `[start, end)` with `0 <= start < end <= 256`
and candidate `X` enumerated in that sub-range, if the target snapshot is
the singleton containing the digest of `X` and no other candidate of the
sub-range shares that digest, then `scan` returns a result map holding
exactly the entry from the digest of `X` to `X`. -/
theorem claim_C1 (H : String → String) (s e : Nat) (X : String)
    (_hse : s < e) (_he : e ≤ 256) (hX : X ∈ candidates s e)
    (huniq : ∀ c ∈ candidates s e, H c = H X → c = X) :
    crack_range H s e {H X} = [(H X, X)] :=
  crackLoop_singleton H X (candidates s e) hX huniq

/-- Witness for C1 at the digest function sending a string to itself, on
the sub-range `[0, 1)` with target candidate `0.0.0.0`. -/
theorem claim_C1_witness :
    "0.0.0.0" ∈ candidates 0 1
    ∧ crack_range (fun c => c) 0 1 {"0.0.0.0"} = [("0.0.0.0", "0.0.0.0")] := by
  have hmem : "0.0.0.0" ∈ candidates 0 1 :=
    (mem_candidates 0 1 _).mpr
      ⟨0, 0, 0, 0, by omega, by omega, by omega, by omega, by omega, rfl⟩
  exact ⟨hmem,
    claim_C1 (fun c => c) 0 1 "0.0.0.0" (by omega) (by omega) hmem (fun c _ h => h)⟩

/-- C5: the Candidate Enumerator for `[start, end)` with `start < end`
produces exactly `(end - start) * 256^3` distinct dotted-quad strings —
`256^4 = 4294967296` of them for `[0, 256)` — in nested ascending order
(equal to the ascending block of 32-bit values, decoded), and they are
precisely the dotted quads whose first octet lies in `[start, end)`. -/
theorem claim_C5 (s e : Nat) (_hse : s < e) (he : e ≤ 256) :
    candidates s e = (List.range' (s * 16777216) ((e - s) * 16777216)).map ipOfVal
    ∧ (candidates s e).length = (e - s) * 16777216
    ∧ (candidates 0 256).length = 4294967296
    ∧ (candidates s e).Nodup
    ∧ ∀ ip, ip ∈ candidates s e
        ↔ ∃ a b c d, s ≤ a ∧ a < e ∧ b < 256 ∧ c < 256 ∧ d < 256 ∧ ip = ipStr a b c d := by
  refine ⟨candidates_eq s e, length_candidates s e, ?_,
    nodup_candidates s e he, mem_candidates s e⟩
  rw [length_candidates]

/-- Witness for C5 on the sub-range `[0, 1)`. -/
theorem claim_C5_witness :
    (0 : Nat) < 1 ∧ (1 : Nat) ≤ 256 ∧ (candidates 0 1).length = 16777216 := by
  refine ⟨by omega, by omega, ?_⟩
  rw [(claim_C5 0 1 (by omega) (by omega)).2.1]

/-- C9: for `start_octet >= end_octet` the enumerator yields the empty
sequence, `scan` returns an empty result map for every snapshot, and no
digest is computed. -/
theorem claim_C9 (H : String → String) (s e : Nat) (T : Finset String)
    (h : e ≤ s) :
    candidates s e = [] ∧ crack_range H s e T = [] ∧ (crack_rangeC H s e T).2 = 0 := by
  have hc : candidates s e = [] := by
    rw [candidates_eq, show e - s = 0 from by omega]
    simp
  refine ⟨hc, ?_, ?_⟩
  · rw [crack_range, hc]
    rfl
  · rw [crack_rangeC, hc]
    rfl

/-- Witness for C9 at the reversed range `[5, 3)`. -/
theorem claim_C9_witness :
    (3 : Nat) ≤ 5 ∧ crack_range (fun c => c) 5 3 ∅ = [] :=
  ⟨by omega, (claim_C9 (fun c => c) 5 3 ∅ (by omega)).2.1⟩

/-- C10 (implicit soundness): every entry of a scan's result map pairs a
digest of the snapshot with a candidate of the scanned sub-range that
hashes to it; hence merged results never contain a digest outside the
snapshot they were dispatched with nor a candidate outside the sub-range. -/
theorem claim_C10 (H : String → String) (s e : Nat) (T : Finset String)
    (_hse : s ≤ e) (he : e ≤ 256) :
    ∀ h ip, (h, ip) ∈ crack_range H s e T →
      h ∈ T ∧ H ip = h ∧
      ∃ a b c d, s ≤ a ∧ a < e ∧ a < 256 ∧ b < 256 ∧ c < 256 ∧ d < 256
        ∧ ip = ipStr a b c d := by
  intro h ip hmem
  rcases crackLoop_sound H T (candidates s e) [] (h, ip) hmem with h0 | h0
  · cases h0
  · obtain ⟨a, b, c, d, h1, h2, h3, h4, h5, h6⟩ := (mem_candidates s e ip).mp h0.2.2
    exact ⟨h0.1, h0.2.1, a, b, c, d, h1, h2, by omega, h3, h4, h5, h6⟩

/-- Witness for C10 on a concrete scan that returns one entry. -/
theorem claim_C10_witness :
    ("0.0.0.0", "0.0.0.0") ∈ crack_range (fun c => c) 0 1 {"0.0.0.0"}
    ∧ "0.0.0.0" ∈ ({"0.0.0.0"} : Finset String)
    ∧ (fun c : String => c) "0.0.0.0" = "0.0.0.0" := by
  have hmem : "0.0.0.0" ∈ candidates 0 1 :=
    (mem_candidates 0 1 _).mpr
      ⟨0, 0, 0, 0, by omega, by omega, by omega, by omega, by omega, rfl⟩
  have hval : crack_range (fun c => c) 0 1 {"0.0.0.0"} = [("0.0.0.0", "0.0.0.0")] :=
    crackLoop_singleton (fun c => c) "0.0.0.0" (candidates 0 1) hmem (fun c _ h => h)
  have hpair : ("0.0.0.0", "0.0.0.0") ∈ crack_range (fun c => c) 0 1 {"0.0.0.0"} := by
    rw [hval]
    exact List.mem_cons_self _ _
  have h := claim_C10 (fun c => c) 0 1 {"0.0.0.0"} (by omega) (by omega)
    "0.0.0.0" "0.0.0.0" hpair
  exact ⟨hpair, h.1, h.2.1⟩

/-- C4 counterexample: with an empty snapshot the claimed immediate stop
does not happen — the length check sits inside the match branch, so the
scanner enumerates (and hashes) its entire sub-range, here all 16777216
candidates of `[0, 1)` instead of the claimed zero. -/
theorem claim_C4_counterexample :
    (crack_rangeC (fun c => c) 0 1 (∅ : Finset String)).2 = 16777216 := by
  rw [crack_rangeC, crackLoopC_count_empty, length_candidates]

/-- C4 as amended: the early-exit comparison of the local result count
with the snapshot size happens only at the moment a match is recorded.
When it fires the scan stops with exactly `card` results and enumerates
nothing further; with a singleton snapshot whose digest occurs in the
sub-range, the enumeration count is exactly the position of the first
match plus one (so no digest is computed after the match); but with an
empty snapshot the check never fires and the scanner enumerates the whole
sub-range. -/
theorem claim_C4_amended (H : String → String) (s e : Nat) (t : String)
    (hmatch : ∃ c ∈ candidates s e, H c = t) :
    (crack_rangeC H s e {t}).1 = crack_range H s e {t}
    ∧ (crack_rangeC H s e {t}).2
        = ((candidates s e).takeWhile (fun c => !(H c == t))).length + 1
    ∧ (∀ T : Finset String,
        (crack_rangeC H s e T).2 ≤ (candidates s e).length
        ∧ ((crack_rangeC H s e T).2 < (candidates s e).length →
            (crack_range H s e T).length = T.card))
    ∧ (crack_rangeC H s e (∅ : Finset String)).2 = (candidates s e).length := by
  refine ⟨crackLoopC_fst H {t} (candidates s e) [] 0, ?_, ?_, ?_⟩
  · rw [crack_rangeC, crackLoopC_count_singleton H t (candidates s e) 0 hmatch]
    omega
  · intro T
    constructor
    · have h := crackLoopC_count_le H T (candidates s e) [] 0
      simpa using h
    · intro hlt
      have h := crackLoopC_early_full H T (candidates s e) [] 0 (by simpa using hlt)
      rw [crack_range, ← crackLoopC_fst H T (candidates s e) [] 0]
      exact h
  · rw [crack_rangeC, crackLoopC_count_empty, length_candidates]
    omega

/-- Witness for the amended C4 on the sub-range `[0, 1)` with a matching
first candidate. -/
theorem claim_C4_witness :
    (∃ c ∈ candidates 0 1, (fun c : String => c) c = "0.0.0.0")
    ∧ (crack_rangeC (fun c : String => c) 0 1 {"0.0.0.0"}).2
        = ((candidates 0 1).takeWhile (fun c => !((fun c : String => c) c == "0.0.0.0"))).length + 1 := by
  have hmem : "0.0.0.0" ∈ candidates 0 1 :=
    (mem_candidates 0 1 _).mpr
      ⟨0, 0, 0, 0, by omega, by omega, by omega, by omega, by omega, rfl⟩
  have hmatch : ∃ c ∈ candidates 0 1, (fun c : String => c) c = "0.0.0.0" :=
    ⟨"0.0.0.0", hmem, rfl⟩
  exact ⟨hmatch, (claim_C4_amended (fun c : String => c) 0 1 "0.0.0.0" hmatch).2.1⟩

/-- C2: after each merge of a scan's result map — after every Phase 1
listed-range scan and after every Phase 2 worker completion, in any
completion order — the pending target set and the keys of the accumulated
result map are disjoint and their union is the key set of the original
target table. -/
theorem claim_C2 (H : String → String) (table : List (String × String))
    (arrivals : List (List (String × String)))
    (hperm : arrivals.Perm (phase2Results H (phase1Run H table).remaining)) :
    (∀ n : Nat,
      AggInv (dkeys table) ((common_ranges.take n).foldl (scanStep H) (initState table)))
    ∧ (∀ n : Nat,
      AggInv (dkeys table) ((arrivals.take n).foldl mergeStep (phase1Run H table))) := by
  constructor
  · intro n
    exact AggInv_foldl_scan H _ _ _ (AggInv_init table)
  · intro n
    apply AggInv_foldl_merge _ _ _ ?_ (AggInv_phase1 H table)
    intro r hr
    have hr2 : r ∈ phase2Results H (phase1Run H table).remaining :=
      hperm.mem_iff.mp (List.mem_of_mem_take hr)
    obtain ⟨se, _, rfl⟩ := List.mem_map.mp hr2
    exact (dkeys_crack_range_sub H se.1 se.2 _).trans
      (remaining_sub_orig _ _ (AggInv_phase1 H table))

/-- Witness for C2 on the hardcoded target table, with the arrival order
equal to the dispatch order. -/
theorem claim_C2_witness :
    (phase2Results (fun _ => "") (phase1Run (fun _ => "") TARGET_HASHES).remaining).Perm
      (phase2Results (fun _ => "") (phase1Run (fun _ => "") TARGET_HASHES).remaining)
    ∧ AggInv (dkeys TARGET_HASHES)
        ((common_ranges.take 1).foldl (scanStep (fun _ => "")) (initState TARGET_HASHES)) :=
  ⟨List.Perm.refl _, (claim_C2 (fun _ => "") TARGET_HASHES _ (List.Perm.refl _)).1 1⟩

/-- C3 counterexample: recording a second match for an already-resolved
digest is not a no-op on the result map — `dict.update` overwrites the
stored candidate, so a later match carrying a different candidate changes
the authoritative map. -/
theorem claim_C3_counterexample :
    (recordResults (recordResults (AggState.mk {"t1", "t2"} []) [("t1", "a")]) [("t1", "b")]).found
      ≠ (recordResults (AggState.mk {"t1", "t2"} []) [("t1", "a")]).found := by
  decide

/-- C3 as amended: merging a worker result all of whose digests are
already resolved leaves the pending target set and the key set of the
authoritative result map unchanged (the hypotheses hold in every reachable
aggregator state by C2); only the stored candidate strings may be
overwritten by the later match. -/
theorem claim_C3_amended (st : AggState) (r : List (String × String))
    (hsub : dkeys r ⊆ dkeys st.found)
    (hdisj : Disjoint st.remaining (dkeys st.found)) :
    (recordResults st r).remaining = st.remaining
    ∧ dkeys (recordResults st r).found = dkeys st.found := by
  constructor
  · show st.remaining \ dkeys r = st.remaining
    rw [sdiff_eq_self_iff_disjoint']
    exact Finset.disjoint_of_subset_right hsub hdisj
  · show dkeys (dictUpdate st.found r) = dkeys st.found
    rw [dkeys_dictUpdate]
    exact Finset.Subset.antisymm
      (Finset.union_subset (Finset.Subset.refl _) hsub) Finset.subset_union_left

/-- Witness for the amended C3 on a small already-resolved state. -/
theorem claim_C3_witness :
    dkeys [("t1", "b")] ⊆ dkeys [("t1", "a")]
    ∧ Disjoint ({"t2"} : Finset String) (dkeys [("t1", "a")])
    ∧ (recordResults (AggState.mk {"t2"} [("t1", "a")]) [("t1", "b")]).remaining = {"t2"} := by
  have h1 : dkeys [("t1", "b")] ⊆ dkeys [("t1", "a")] := by decide
  have h2 : Disjoint ({"t2"} : Finset String) (dkeys [("t1", "a")]) := by decide
  exact ⟨h1, h2,
    (claim_C3_amended (AggState.mk {"t2"} [("t1", "a")]) [("t1", "b")] h1 h2).1⟩

theorem ico_disjoint_of_le {a b c d : Nat} (h : b ≤ c ∨ d ≤ a) :
    Disjoint (Finset.Ico a b) (Finset.Ico c d) := by
  rw [Finset.disjoint_left]
  intro x hx hx'
  rw [Finset.mem_Ico] at hx hx'
  omega

theorem mem_foldl_union (rs : List (Nat × Nat)) :
    ∀ (acc : Finset Nat) (x : Nat),
      (x ∈ rs.foldl (fun acc p => acc ∪ Finset.Ico p.1 p.2) acc
        ↔ x ∈ acc ∨ ∃ p ∈ rs, x ∈ Finset.Ico p.1 p.2) := by
  induction rs with
  | nil => intro acc x; simp
  | cons hd tl ih =>
    intro acc x
    rw [List.foldl_cons, ih]
    simp only [Finset.mem_union, List.mem_cons]
    constructor
    · rintro ((h | h) | ⟨p, hp, hx⟩)
      · exact Or.inl h
      · exact Or.inr ⟨hd, Or.inl rfl, h⟩
      · exact Or.inr ⟨p, Or.inr hp, hx⟩
    · rintro (h | ⟨p, rfl | hp, hx⟩)
      · exact Or.inl (Or.inl h)
      · exact Or.inl (Or.inr hx)
      · exact Or.inr ⟨p, hp, hx⟩

theorem mem_chunkRanges (p : Nat × Nat) :
    p ∈ chunkRanges ↔ ∃ i < 16, p = (16 * i, min (16 * i + 16) 256) := by
  rw [chunkRanges]
  simp only [List.mem_map, List.mem_range']
  constructor
  · rintro ⟨a, ⟨i, hi, rfl⟩, rfl⟩
    exact ⟨i, hi, by rw [Nat.zero_add]⟩
  · rintro ⟨i, hi, rfl⟩
    exact ⟨16 * i, ⟨i, hi, by omega⟩, rfl⟩

/-- C6: when digests remain pending after Phase 1, Phase 2 partitions the
entire octet space `[0, 256)` into exactly 16 chunks of width 16 —
pairwise disjoint, with union `[0, 256)` — and dispatches every chunk
against the one pending-set snapshot taken at dispatch time. -/
theorem claim_C6 :
    chunkRanges.length = 16
    ∧ (∀ p ∈ chunkRanges, p.2 = p.1 + 16)
    ∧ chunkRanges.Pairwise (fun p q => Disjoint (Finset.Ico p.1 p.2) (Finset.Ico q.1 q.2))
    ∧ chunkRanges.foldl (fun acc p => acc ∪ Finset.Ico p.1 p.2) ∅ = Finset.range 256
    ∧ (∀ (H : String → String) (pending : Finset String),
        phase2Results H pending
          = chunkRanges.map (fun se => crack_range H se.1 se.2 pending))
    ∧ (∀ (H : String → String) (table : List (String × String))
        (arrivals : List (List (String × String))),
        runAll H table arrivals
          = if (phase1Run H table).remaining = ∅ then phase1Run H table
            else arrivals.foldl mergeStep (phase1Run H table)) := by
  refine ⟨by decide, by decide, ?_, ?_, fun H pending => rfl, fun H table arrivals => rfl⟩
  · have harith : chunkRanges.Pairwise (fun p q => p.2 ≤ q.1 ∨ q.2 ≤ p.1) := by decide
    exact harith.imp ico_disjoint_of_le
  · ext x
    rw [mem_foldl_union, Finset.mem_range]
    simp only [Finset.not_mem_empty, false_or]
    constructor
    · rintro ⟨p, hp, hx⟩
      obtain ⟨i, hi, rfl⟩ := (mem_chunkRanges p).mp hp
      rw [Finset.mem_Ico] at hx
      omega
    · intro hx
      refine ⟨(16 * (x / 16), min (16 * (x / 16) + 16) 256),
        (mem_chunkRanges _).mpr ⟨x / 16, by omega, rfl⟩, ?_⟩
      rw [Finset.mem_Ico]
      omega

/-- C7: the final report has exactly one line for every entry of the
original target table, in table order: the label with the resolved
candidate when the digest was cracked, and the label with `NOT FOUND` and
the digest itself otherwise; an unresolved target is reported, never
raised. -/
theorem claim_C7 (H : String → String) (table : List (String × String))
    (arrivals : List (List (String × String)))
    (_hperm : arrivals.Perm (phase2Results H (phase1Run H table).remaining)) :
    (finalReport table (runAll H table arrivals).found).length = table.length
    ∧ ∀ h lab, (h, lab) ∈ table →
        reportLine (runAll H table arrivals).found (h, lab)
            ∈ finalReport table (runAll H table arrivals).found
        ∧ (h ∈ dkeys (runAll H table arrivals).found →
            ∃ ip, List.lookup h (runAll H table arrivals).found = some ip
              ∧ reportLine (runAll H table arrivals).found (h, lab) = lab ++ ": " ++ ip)
        ∧ (h ∉ dkeys (runAll H table arrivals).found →
            reportLine (runAll H table arrivals).found (h, lab)
              = lab ++ ": NOT FOUND (hash: " ++ h ++ ")") := by
  refine ⟨by simp [finalReport], ?_⟩
  intro h lab hmem
  refine ⟨List.mem_map_of_mem _ hmem, ?_, ?_⟩
  · intro hin
    have hsome := (lookup_isSome_iff_mem_dkeys _ h).mpr hin
    obtain ⟨ip, hip⟩ := Option.isSome_iff_exists.mp hsome
    exact ⟨ip, hip, by simp only [reportLine, hip]⟩
  · intro hout
    have hnone : List.lookup h (runAll H table arrivals).found = none := by
      cases hl : List.lookup h (runAll H table arrivals).found with
      | none => rfl
      | some ip =>
        exact absurd ((lookup_isSome_iff_mem_dkeys _ h).mp (by rw [hl]; rfl)) hout
    simp only [reportLine, hnone]

/-- Witness for C7 on the hardcoded table. -/
theorem claim_C7_witness :
    (phase2Results (fun _ => "x") (phase1Run (fun _ => "x") TARGET_HASHES).remaining).Perm
      (phase2Results (fun _ => "x") (phase1Run (fun _ => "x") TARGET_HASHES).remaining)
    ∧ (finalReport TARGET_HASHES
        (runAll (fun _ => "x") TARGET_HASHES
          (phase2Results (fun _ => "x")
            (phase1Run (fun _ => "x") TARGET_HASHES).remaining)).found).length
        = TARGET_HASHES.length :=
  ⟨List.Perm.refl _, (claim_C7 (fun _ => "x") TARGET_HASHES _ (List.Perm.refl _)).1⟩

/-- C8: the aggregator's merge is commutative on disjoint worker results:
merging two result maps with disjoint key sets into any aggregate state in
either order leaves the same pending set and the same result mapping
(Python dict equality, which ignores insertion order). -/
theorem claim_C8 (st : AggState) (r₁ r₂ : List (String × String))
    (hdisj : Disjoint (dkeys r₁) (dkeys r₂)) :
    (recordResults (recordResults st r₁) r₂).remaining
        = (recordResults (recordResults st r₂) r₁).remaining
    ∧ dictEquiv (recordResults (recordResults st r₁) r₂).found
        (recordResults (recordResults st r₂) r₁).found := by
  constructor
  · show (st.remaining \ dkeys r₁) \ dkeys r₂ = (st.remaining \ dkeys r₂) \ dkeys r₁
    exact sdiff_sdiff_comm
  · intro k
    show List.lookup k (dictUpdate (dictUpdate st.found r₁) r₂)
      = List.lookup k (dictUpdate (dictUpdate st.found r₂) r₁)
    rw [lookup_dictUpdate, lookup_dictUpdate, lookup_dictUpdate, lookup_dictUpdate]
    cases h1 : List.lookup k r₁.reverse with
    | none =>
      cases h2 : List.lookup k r₂.reverse with
      | none => rfl
      | some v2 => rfl
    | some v1 =>
      cases h2 : List.lookup k r₂.reverse with
      | none => rfl
      | some v2 =>
        have hk1 : k ∈ dkeys r₁ := by
          rw [← dkeys_reverse]
          exact (lookup_isSome_iff_mem_dkeys r₁.reverse k).mp (by rw [h1]; rfl)
        have hk2 : k ∈ dkeys r₂ := by
          rw [← dkeys_reverse]
          exact (lookup_isSome_iff_mem_dkeys r₂.reverse k).mp (by rw [h2]; rfl)
        exact absurd hk2 (Finset.disjoint_left.mp hdisj hk1)

/-- Witness for C8 on two small disjoint worker results. -/
theorem claim_C8_witness :
    Disjoint (dkeys [("a", "1")]) (dkeys [("b", "2")])
    ∧ (recordResults (recordResults (AggState.mk {"a", "b"} []) [("a", "1")]) [("b", "2")]).remaining
        = (recordResults (recordResults (AggState.mk {"a", "b"} []) [("b", "2")]) [("a", "1")]).remaining := by
  have h : Disjoint (dkeys [("a", "1")]) (dkeys [("b", "2")]) := by decide
  exact ⟨h, (claim_C8 (AggState.mk {"a", "b"} []) [("a", "1")] [("b", "2")] h).1⟩

/-- Witness for C6 at the first chunk. -/
theorem claim_C6_witness :
    ((0, 16) : Nat × Nat) ∈ chunkRanges ∧ ((0, 16) : Nat × Nat).2 = ((0, 16) : Nat × Nat).1 + 16 := by
  have hm : ((0, 16) : Nat × Nat) ∈ chunkRanges := by decide
  exact ⟨hm, claim_C6.2.1 (0, 16) hm⟩
